import Mathlib

/-!
Verification of the data node's block storage engine of the
Distributed-File-System repository, shallowly embedded from
src/fs_server (block_store.cpp, disk.cpp, lru_cache.cpp, lfu_cache.cpp,
fsserver_service.cpp) into Lean.

Byte strings are embedded as `List Nat`; the on-disk directory and the
C++ hash maps are embedded as association lists.
-/

namespace DFS

/-- First-match lookup in an association list; embeds
`std::unordered_map::find`. -/
def lookupA {α : Type} (k : Nat) : List (Nat × α) → Option α
  | [] => none
  | (k', v) :: t => if k = k' then some v else lookupA k t

/-- Insert-or-assign; embeds `map[k] = v`. -/
def setAssoc {α : Type} (k : Nat) (v : α) : List (Nat × α) → List (Nat × α)
  | [] => [(k, v)]
  | (k', v') :: t => if k = k' then (k, v) :: t else (k', v') :: setAssoc k v t

/-- Replace the value stored at `k` (first match), leaving the list
unchanged when `k` is absent; embeds mutating a node found through the map. -/
def updateA {α : Type} (k : Nat) (v : α) : List (Nat × α) → List (Nat × α)
  | [] => []
  | (k', v') :: t => if k = k' then (k, v) :: t else (k', v') :: updateA k v t

/-- Erase the first entry with key `k`; embeds `map.erase(k)`. -/
def eraseAssoc {α : Type} (k : Nat) : List (Nat × α) → List (Nat × α)
  | [] => []
  | (k', v') :: t => if k = k' then t else (k', v') :: eraseAssoc k t

/-- The keys of an association list, in order. -/
def keys {α : Type} (l : List (Nat × α)) : List Nat := l.map Prod.fst

theorem lookupA_cons_self {α : Type} (k : Nat) (v : α) (l : List (Nat × α)) :
    lookupA k ((k, v) :: l) = some v := by
  simp [lookupA]

theorem lookupA_setAssoc_self {α : Type} (k : Nat) (v : α) (l : List (Nat × α)) :
    lookupA k (setAssoc k v l) = some v := by
  induction l with
  | nil => simp [setAssoc, lookupA]
  | cons h t ih =>
      obtain ⟨k', v'⟩ := h
      by_cases hk : k = k'
      · simp [setAssoc, hk, lookupA]
      · simp [setAssoc, hk, lookupA, ih]

theorem lookupA_setAssoc_ne {α : Type} (k k' : Nat) (v : α) (l : List (Nat × α))
    (h : k' ≠ k) : lookupA k' (setAssoc k v l) = lookupA k' l := by
  induction l with
  | nil => simp [setAssoc, lookupA, h]
  | cons hd t ih =>
      obtain ⟨k'', v''⟩ := hd
      by_cases hk : k = k''
      · subst hk
        simp [setAssoc, lookupA, h]
      · by_cases hk2 : k' = k''
        · simp [setAssoc, hk, lookupA, hk2]
        · simp [setAssoc, hk, lookupA, hk2, ih]

theorem lookupA_updateA_self {α : Type} (k : Nat) (v v₀ : α) (l : List (Nat × α))
    (h : lookupA k l = some v₀) : lookupA k (updateA k v l) = some v := by
  induction l with
  | nil => simp [lookupA] at h
  | cons hd t ih =>
      obtain ⟨k', v'⟩ := hd
      by_cases hk : k = k'
      · simp [updateA, hk, lookupA]
      · simp [lookupA, hk] at h
        simp [updateA, hk, lookupA, ih h]

theorem lookupA_eq_none_iff {α : Type} (k : Nat) (l : List (Nat × α)) :
    lookupA k l = none ↔ k ∉ keys l := by
  induction l with
  | nil => simp [lookupA, keys]
  | cons hd t ih =>
      obtain ⟨k', v'⟩ := hd
      by_cases hk : k = k'
      · simp [lookupA, hk, keys]
      · simp [lookupA, hk, keys, ih]

theorem lookupA_isSome_iff {α : Type} (k : Nat) (l : List (Nat × α)) :
    (lookupA k l).isSome = true ↔ k ∈ keys l := by
  induction l with
  | nil => simp [lookupA, keys]
  | cons hd t ih =>
      obtain ⟨k', v'⟩ := hd
      by_cases hk : k = k'
      · simp [lookupA, hk, keys]
      · simp [lookupA, hk, keys, ih]

theorem keys_eraseAssoc {α : Type} (k : Nat) (l : List (Nat × α)) :
    keys (eraseAssoc k l) = (keys l).erase k := by
  induction l with
  | nil => simp [eraseAssoc, keys]
  | cons hd t ih =>
      obtain ⟨k', v'⟩ := hd
      by_cases hk : k = k'
      · subst hk
        simp [eraseAssoc, keys, List.erase_cons]
      · have : (k' == k) = false := by
          simp [beq_iff_eq]
          exact fun h => hk h.symm
        simp only [eraseAssoc, if_neg hk, keys, List.map_cons, List.erase_cons, this,
          if_false]
        exact congrArg (_ :: ·) ih

theorem lookupA_eraseAssoc_self {α : Type} (k : Nat) (l : List (Nat × α))
    (h : (keys l).Nodup) : lookupA k (eraseAssoc k l) = none := by
  induction l with
  | nil => simp [eraseAssoc, lookupA]
  | cons hd t ih =>
      obtain ⟨k', v'⟩ := hd
      simp [keys] at h
      by_cases hk : k = k'
      · subst hk
        rw [lookupA_eq_none_iff]
        simpa [eraseAssoc, keys] using h.1
      · simp [eraseAssoc, hk, lookupA, ih h.2]

/-!
## Read-modify-write arithmetic

`spliceAt` embeds the in-memory block modification of
`BlockStore::WriteBlock` (block_store.cpp lines 71-75 in the disk-only
branch and the identical lines 113-119 in the cache branch):
`block_data.resize(offset + data.length(), 0)` when too short, then
`std::copy(data.begin(), data.end(), block_data.begin() + offset)`.
-/

/-- The whole-block image after writing `d` at `offset` into `p`:
zero-pad `p` up to `offset + |d|` if needed, then overwrite the region
`[offset, offset + |d|)` with `d`. -/
def spliceAt (p : List Nat) (offset : Nat) (d : List Nat) : List Nat :=
  let required := offset + d.length
  let p' := if p.length < required then p ++ List.replicate (required - p.length) 0 else p
  p'.take offset ++ d ++ p'.drop (offset + d.length)

theorem spliceAt_padded_length (p : List Nat) (offset : Nat) (d : List Nat) :
    (if p.length < offset + d.length
      then p ++ List.replicate (offset + d.length - p.length) 0 else p).length
      = max p.length (offset + d.length) := by
  by_cases h : p.length < offset + d.length
  · simp [h, Nat.max_eq_right (Nat.le_of_lt h)]
    omega
  · simp [h, Nat.max_eq_left (Nat.le_of_not_lt h)]

theorem spliceAt_length (p : List Nat) (offset : Nat) (d : List Nat) :
    (spliceAt p offset d).length = max p.length (offset + d.length) := by
  unfold spliceAt
  simp only [List.length_append]
  rw [List.length_take, List.length_drop, spliceAt_padded_length]
  omega

/-- Reading back the written region recovers exactly `d`. -/
theorem spliceAt_read (p : List Nat) (offset : Nat) (d : List Nat) :
    ((spliceAt p offset d).drop offset).take d.length = d := by
  unfold spliceAt
  simp only
  set p' := if p.length < offset + d.length
    then p ++ List.replicate (offset + d.length - p.length) 0 else p with hp'
  have hlen : p'.length = max p.length (offset + d.length) := by
    rw [hp']
    exact spliceAt_padded_length p offset d
  have htake : (p'.take offset).length = offset := by
    rw [List.length_take]
    omega
  have key : ∀ (q rest : List Nat), q.length = offset →
      ((q ++ (d ++ rest)).drop offset).take d.length = d := by
    intro q rest hq
    rw [← hq, List.drop_left, List.take_left]
  rw [List.append_assoc]
  exact key _ _ htake

theorem spliceAt_ge (p : List Nat) (offset : Nat) (d : List Nat) :
    offset + d.length ≤ (spliceAt p offset d).length := by
  rw [spliceAt_length]
  omega

/-!
## DiskStore (disk.cpp)

State: the set of block files under the blocks directory (an association
list from block id to file bytes) plus the four I/O counters.  The log
records the fsync-failure diagnostic of `DiskStore::WriteBlock`
(disk.cpp lines 63-66); all other logging is to stdout/stderr only and
carries no state.

I/O failures of the environment are surfaced through `IOEnv`:
`writeOk = false` models the open-or-write failure (lines 40-53, the
function returns `false` before any state change), `openForSyncOk` and
`fsyncOk` model the post-write `::open` and `::fsync` of lines 61-68,
whose failures are logged (or, for `::open`, silently skipped) without
affecting the returned result or the counters.
-/

inductive DiskLog where
  | fsyncFailed (id : Nat)
  deriving DecidableEq, Repr

structure IOEnv where
  writeOk : Bool
  openForSyncOk : Bool
  fsyncOk : Bool
  deriving DecidableEq, Repr

/-- The environment in which every I/O system call succeeds. -/
def IOEnv.ok : IOEnv := ⟨true, true, true⟩

structure DiskStore where
  files : List (Nat × List Nat)
  totalReads : Nat
  totalWrites : Nat
  totalBytesRead : Nat
  totalBytesWritten : Nat
  log : List DiskLog
  deriving DecidableEq, Repr

/-- A DiskStore over an empty directory, counters zero. -/
def DiskStore.init : DiskStore := ⟨[], 0, 0, 0, 0, []⟩

/-- disk.cpp lines 34-86: truncate-and-write the whole block file.  On a
failed open/write it returns `false` with no state change; a failed
post-write fsync is logged only: the result is still `true` and the
counters are still incremented. -/
def DiskStore.WriteBlock (ds : DiskStore) (id : Nat) (data : List Nat)
    (sync : Bool) (env : IOEnv) : Bool × DiskStore :=
  if !env.writeOk then (false, ds)
  else
    (true,
     { ds with
        files := setAssoc id data ds.files,
        totalWrites := ds.totalWrites + 1,
        totalBytesWritten := ds.totalBytesWritten + data.length,
        log := if sync && env.openForSyncOk && !env.fsyncOk
          then DiskLog.fsyncFailed id :: ds.log else ds.log })

/-- disk.cpp lines 88-134: read the whole file; fails iff the file does
not exist.  Counters are incremented only on success. -/
def DiskStore.ReadBlock (ds : DiskStore) (id : Nat) :
    Option (List Nat) × DiskStore :=
  match lookupA id ds.files with
  | none => (none, ds)
  | some d =>
      (some d,
       { ds with
          totalReads := ds.totalReads + 1,
          totalBytesRead := ds.totalBytesRead + d.length })

/-- disk.cpp lines 136-155: remove the file; fails if absent. -/
def DiskStore.DeleteBlock (ds : DiskStore) (id : Nat) : Bool × DiskStore :=
  match lookupA id ds.files with
  | none => (false, ds)
  | some _ => (true, { ds with files := eraseAssoc id ds.files })

/-- disk.cpp lines 157-160. -/
def DiskStore.BlockExists (ds : DiskStore) (id : Nat) : Bool :=
  (lookupA id ds.files).isSome

/-- disk.cpp lines 162-174: file size in bytes, 0 if absent. -/
def DiskStore.GetBlockSize (ds : DiskStore) (id : Nat) : Nat :=
  ((lookupA id ds.files).getD []).length

/-!
## Eviction policies (lru_cache.cpp, lfu_cache.cpp)

A page is a whole-block byte string plus a dirty flag
(page_cache_policy.hpp, `struct Page`).

Eviction-callback invocations are embedded as an explicit list of
`(block_uuid, data)` pairs returned by the mutating operation: the list
holds exactly the calls the source makes to the registered
`EvictionCallback`.  The in-memory hit/miss/eviction statistics carry no
semantic weight for the verified properties and are omitted.

`LRUCache` keeps the doubly-linked list and the hash map as a single
association list whose order is recency order (front = most recently
used, back = least recently used); the source's `size_` always equals
`cache_map_.size()` (it is incremented exactly when a node is inserted
into the map and decremented exactly when one is erased), so size is
embedded as the length of that list.  `num_dirty_pages_`
(lru_cache.hpp line 86) is kept as an explicit field; faithfully to
lru_cache.cpp, no operation ever updates it.
-/

structure Page where
  data : List Nat
  dirty : Bool
  deriving DecidableEq, Repr

structure LRUCache where
  capacity : Nat
  /-- Front = most recently used.  Also serves as `cache_map_`
  (first-match lookup). -/
  entries : List (Nat × Page)
  /-- lru_cache.hpp line 86, initialised to 0 and -- exactly as in
  lru_cache.cpp -- never touched by any operation. -/
  numDirtyPages : Nat
  deriving DecidableEq, Repr

/-- A fresh LRU cache (lru_cache.cpp lines 8-17). -/
def LRUCache.init (cap : Nat) : LRUCache := ⟨cap, [], 0⟩

/-- lru_cache.cpp lines 34-52: on a hit, move the node to the front and
return a copy of its data; `dirty` is unchanged. -/
def LRUCache.Get (s : LRUCache) (id : Nat) : Option (List Nat) × LRUCache :=
  match lookupA id s.entries with
  | some p => (some p.data, { s with entries := (id, p) :: eraseAssoc id s.entries })
  | none => (none, s)

/-- lru_cache.cpp lines 145-165: evict the least recently used node
(the back of the list); invoke the callback iff the page is dirty; then
remove the node.  The `size_ >= 1` guard is the nonemptiness check. -/
def LRUCache.EvictLRU (s : LRUCache) : List (Nat × List Nat) × LRUCache :=
  match s.entries.getLast? with
  | none => ([], s)
  | some (vid, p) =>
      (if p.dirty then [(vid, p.data)] else [],
       { s with entries := s.entries.dropLast })

/-- lru_cache.cpp lines 54-87: upsert.  Present: overwrite data and the
dirty flag, move to front.  Absent: evict first when `size_ >=
capacity_`, then insert at the front. -/
def LRUCache.Put (s : LRUCache) (id : Nat) (data : List Nat) (dirty : Bool) :
    List (Nat × List Nat) × LRUCache :=
  match lookupA id s.entries with
  | some _ =>
      ([], { s with entries := (id, ⟨data, dirty⟩) :: eraseAssoc id s.entries })
  | none =>
      let es := if s.entries.length ≥ s.capacity then LRUCache.EvictLRU s else ([], s)
      (es.1, { es.2 with entries := (id, ⟨data, dirty⟩) :: es.2.entries })

/-- lru_cache.cpp lines 89-102: erase without callback. -/
def LRUCache.Remove (s : LRUCache) (id : Nat) : Bool × LRUCache :=
  match lookupA id s.entries with
  | some _ => (true, { s with entries := eraseAssoc id s.entries })
  | none => (false, s)

/-- lru_cache.cpp lines 104-107. -/
def LRUCache.Contains (s : LRUCache) (id : Nat) : Bool :=
  (lookupA id s.entries).isSome

/-- Modelled from the spec: the body of `LRUCache::GetDirtyPageCount`
is declared (lru_cache.hpp line 55) and called (block_store.cpp line
266, main.cpp line 139) but missing from the repository sources; per
spec section 4.2 it reports the cache's dirty-page counter, which is the
field `num_dirty_pages_` of lru_cache.hpp line 86. -/
def LRUCache.GetDirtyPageCount (s : LRUCache) : Nat := s.numDirtyPages

/-- The number of pages whose dirty flag is set, for comparison with the
counter. -/
def LRUCache.actualDirtyCount (s : LRUCache) : Nat :=
  (s.entries.filter (fun e => e.2.dirty)).length

/-!
`LFUCache` (lfu_cache.cpp): `cacheMap` embeds `cache_map_` (node fields
`data`, `dirty`, `freq`); `freqMap` embeds `freq_map_` as an association
list from frequency to the list of block ids in that frequency's
doubly-linked list, front = most recently used.  `size_` equals
`cache_map_.size()` as for LRU and is embedded as its length.
`bucketOf` treats an absent list as empty, matching
`FrequencyList::isEmpty`/`getTail` on a fresh list and
`getOrCreateFreqList`.
-/

structure LFUNode where
  data : List Nat
  dirty : Bool
  freq : Nat
  deriving DecidableEq, Repr

structure LFUCache where
  capacity : Nat
  cacheMap : List (Nat × LFUNode)
  freqMap : List (Nat × List Nat)
  minFreq : Nat
  deriving DecidableEq, Repr

/-- A fresh LFU cache (lfu_cache.cpp lines 6-9). -/
def LFUCache.init (cap : Nat) : LFUCache := ⟨cap, [], [], 1⟩

def bucketOf (fm : List (Nat × List Nat)) (f : Nat) : List Nat :=
  (lookupA f fm).getD []

/-- lfu_cache.cpp lines 34-62: on a hit, remove the node from its
frequency list, advance `min_freq_` when that list emptied at
`min_freq_`, bump the node's frequency and place it at the front of the
new list; return a copy of the data.  `dirty` is unchanged. -/
def LFUCache.Get (s : LFUCache) (id : Nat) : Option (List Nat) × LFUCache :=
  match lookupA id s.cacheMap with
  | none => (none, s)
  | some n =>
      let b1 := (bucketOf s.freqMap n.freq).erase id
      let min1 := if s.minFreq = n.freq && b1.isEmpty then s.minFreq + 1 else s.minFreq
      let fm1 := setAssoc n.freq b1 s.freqMap
      let fm2 := setAssoc (n.freq + 1) (id :: bucketOf fm1 (n.freq + 1)) fm1
      (some n.data,
       { s with
          cacheMap := updateA id { n with freq := n.freq + 1 } s.cacheMap,
          freqMap := fm2, minFreq := min1 })

/-- lfu_cache.cpp lines 114-147: evict the tail (least recently used)
of the `min_freq_` list; on an empty or missing list, log and do
nothing.  The callback fires iff the victim is dirty, before the node
is removed from the structures. -/
def LFUCache.EvictLFU (s : LFUCache) : List (Nat × List Nat) × LFUCache :=
  match (bucketOf s.freqMap s.minFreq).getLast? with
  | none => ([], s)
  | some vid =>
      let es := match lookupA vid s.cacheMap with
        | some n => if n.dirty then [(vid, n.data)] else []
        | none => []
      (es,
       { s with
          cacheMap := eraseAssoc vid s.cacheMap,
          freqMap := setAssoc s.minFreq (bucketOf s.freqMap s.minFreq).dropLast
            s.freqMap })

/-- lfu_cache.cpp lines 64-112: zero capacity rejects; an existing
block is updated (data and dirty overwritten) and its frequency bumped
exactly as in `Get`; a new block evicts first when `size_ >= capacity_`,
then is inserted with frequency 1 and `min_freq_ = 1`. -/
def LFUCache.Put (s : LFUCache) (id : Nat) (data : List Nat) (dirty : Bool) :
    Bool × List (Nat × List Nat) × LFUCache :=
  if s.capacity = 0 then (false, [], s)
  else
    match lookupA id s.cacheMap with
    | some n =>
        let b1 := (bucketOf s.freqMap n.freq).erase id
        let min1 := if s.minFreq = n.freq && b1.isEmpty then s.minFreq + 1 else s.minFreq
        let fm1 := setAssoc n.freq b1 s.freqMap
        let fm2 := setAssoc (n.freq + 1) (id :: bucketOf fm1 (n.freq + 1)) fm1
        (true, [],
         { s with
            cacheMap := updateA id ⟨data, dirty, n.freq + 1⟩ s.cacheMap,
            freqMap := fm2, minFreq := min1 })
    | none =>
        let es := if s.cacheMap.length ≥ s.capacity then LFUCache.EvictLFU s else ([], s)
        (true, es.1,
         { es.2 with
            cacheMap := (id, ⟨data, dirty, 1⟩) :: es.2.cacheMap,
            freqMap := setAssoc 1 (id :: bucketOf es.2.freqMap 1) es.2.freqMap,
            minFreq := 1 })

/-- lfu_cache.cpp lines 149-171: erase without callback; `min_freq_` is
not adjusted. -/
def LFUCache.Remove (s : LFUCache) (id : Nat) : Bool × LFUCache :=
  match lookupA id s.cacheMap with
  | none => (false, s)
  | some n =>
      (true,
       { s with
          cacheMap := eraseAssoc id s.cacheMap,
          freqMap := setAssoc n.freq ((bucketOf s.freqMap n.freq).erase id)
            s.freqMap })

/-- lfu_cache.cpp lines 173-176. -/
def LFUCache.Contains (s : LFUCache) (id : Nat) : Bool :=
  (lookupA id s.cacheMap).isSome

/-!
## PageCache facade

Modelled from the spec: cache.hpp declares the policy-selecting
`PageCache(CachePolicy, uint64_t)` facade used by block_store.cpp, but
cache.cpp in the repository is an obsolete placeholder implementing an
older, incompatible interface (`Get(id, offset, length, out)`,
always-miss).  Per spec section 4.3 the facade is "a thin facade over a
policy ... It forwards all operations"; it is embedded as a sum of the
two policy states with pure forwarding.
-/

inductive PageCache where
  | lru : LRUCache → PageCache
  | lfu : LFUCache → PageCache
  deriving DecidableEq, Repr

def PageCache.Get : PageCache → Nat → Option (List Nat) × PageCache
  | .lru s, id => let r := LRUCache.Get s id; (r.1, .lru r.2)
  | .lfu s, id => let r := LFUCache.Get s id; (r.1, .lfu r.2)

def PageCache.Put : PageCache → Nat → List Nat → Bool →
    Bool × List (Nat × List Nat) × PageCache
  | .lru s, id, data, dirty =>
      let r := LRUCache.Put s id data dirty
      (true, r.1, .lru r.2)
  | .lfu s, id, data, dirty =>
      let r := LFUCache.Put s id data dirty
      (r.1, r.2.1, .lfu r.2.2)

def PageCache.Remove : PageCache → Nat → Bool × PageCache
  | .lru s, id => let r := LRUCache.Remove s id; (r.1, .lru r.2)
  | .lfu s, id => let r := LFUCache.Remove s id; (r.1, .lfu r.2)

def PageCache.Contains : PageCache → Nat → Bool
  | .lru s, id => LRUCache.Contains s id
  | .lfu s, id => LFUCache.Contains s id

/-- Observation used only in theorem statements: the data currently
stored in the cache for `id`, without mutating recency/frequency
state.  Agrees with what `Get` would return. -/
def PageCache.peek : PageCache → Nat → Option (List Nat)
  | .lru s, id => (lookupA id s.entries).map Page.data
  | .lfu s, id => (lookupA id s.cacheMap).map LFUNode.data

/-- Keys of the underlying hash map are pairwise distinct -- an
invariant every reachable C++ state satisfies, since `cache_map_` is a
`std::unordered_map`. -/
def PageCache.KeysNodup : PageCache → Prop
  | .lru s => (keys s.entries).Nodup
  | .lfu s => (keys s.cacheMap).Nodup

instance : ∀ c : PageCache, Decidable (PageCache.KeysNodup c) := by
  intro c
  cases c <;> simp [PageCache.KeysNodup] <;> infer_instance

/-!
## BlockStore (block_store.cpp)

Owns the DiskStore and, when enabled, the PageCache; the eviction
callback registered at construction (block_store.cpp lines 21-28)
writes each evicted dirty page to disk via
`DiskStore::WriteBlock(id, data, sync=true)`.  `applyEvictions` runs
that callback over the invocation list returned by the cache; a failed
disk write would only be logged (line 24-27), and the embedding runs
the callback in the all-success environment since BlockStore never
propagates its result.
-/

structure BlockStore where
  cacheEnabled : Bool
  cache : PageCache
  disk : DiskStore
  deriving DecidableEq, Repr

def applyEvictions (ds : DiskStore) : List (Nat × List Nat) → DiskStore
  | [] => ds
  | (bid, bdata) :: t =>
      applyEvictions (DiskStore.WriteBlock ds bid bdata true IOEnv.ok).2 t

/-- block_store.cpp lines 51-139.  Disk-only mode (lines 55-87): read
the old block only when `offset > 0` and the block exists on disk,
splice, then write through with `sync = false`.  Cache mode (lines
89-133): `Get` (which reorders the cache), else read the old block from
disk when present, splice, then `Put(id, image, dirty=true)` --
write-back, the `sync` argument is ignored.  The embedding runs in the
all-success I/O environment; the source's early `return false` paths on
disk errors are the corresponding `none`/`false` match arms. -/
def BlockStore.WriteBlock (s : BlockStore) (id offset : Nat) (data : List Nat)
    (sync : Bool) : Bool × BlockStore :=
  if !s.cacheEnabled then
    match
      (if offset > 0 && DiskStore.BlockExists s.disk id then
        match DiskStore.ReadBlock s.disk id with
        | (some d, ds) => some (d, ds)
        | (none, _) => none
      else some ([], s.disk)) with
    | none => (false, s)
    | some (blockData, ds1) =>
        match DiskStore.WriteBlock ds1 id (spliceAt blockData offset data) false
          IOEnv.ok with
        | (true, ds2) => (true, { s with disk := ds2 })
        | (false, ds2) => (false, { s with disk := ds2 })
  else
    match PageCache.Get s.cache id with
    | (some cached, c1) =>
        let r := PageCache.Put c1 id (spliceAt cached offset data) true
        (true, { s with cache := r.2.2, disk := applyEvictions s.disk r.2.1 })
    | (none, c1) =>
        if DiskStore.BlockExists s.disk id then
          match DiskStore.ReadBlock s.disk id with
          | (some d, ds1) =>
              let r := PageCache.Put c1 id (spliceAt d offset data) true
              (true, { s with cache := r.2.2, disk := applyEvictions ds1 r.2.1 })
          | (none, ds1) => (false, { s with cache := c1, disk := ds1 })
        else
          let r := PageCache.Put c1 id (spliceAt [] offset data) true
          (true, { s with cache := r.2.2, disk := applyEvictions s.disk r.2.1 })

/-- block_store.cpp lines 177-201: extract the requested portion of the
whole-block image. -/
def extractPortion (blockData : List Nat) (offset length : Nat) : List Nat :=
  if offset ≥ blockData.length then []
  else
    let actual := if length = 0 then blockData.length - offset
      else min length (blockData.length - offset)
    (blockData.drop offset).take actual

/-- block_store.cpp lines 141-208.  Disk-only: whole-block disk read.
Cache mode: cache hit, else disk read followed by a clean
`Put(id, data, dirty=false)` (which may evict a dirty page and hence
write it back).  Then extract `[offset, ...)`. -/
def BlockStore.ReadBlock (s : BlockStore) (id offset length : Nat) :
    Option (List Nat) × BlockStore :=
  if !s.cacheEnabled then
    match DiskStore.ReadBlock s.disk id with
    | (none, ds) => (none, { s with disk := ds })
    | (some bd, ds) => (some (extractPortion bd offset length), { s with disk := ds })
  else
    match PageCache.Get s.cache id with
    | (some bd, c1) => (some (extractPortion bd offset length), { s with cache := c1 })
    | (none, c1) =>
        match DiskStore.ReadBlock s.disk id with
        | (none, ds) => (none, { s with cache := c1, disk := ds })
        | (some bd, ds) =>
            let r := PageCache.Put c1 id bd false
            (some (extractPortion bd offset length),
             { s with cache := r.2.2, disk := applyEvictions ds r.2.1 })

/-- block_store.cpp lines 210-230: remove from the cache (no callback),
then delete from disk; the result is the disk deletion's result and a
disk failure does not restore the cache. -/
def BlockStore.DeleteBlock (s : BlockStore) (id : Nat) : Bool × BlockStore :=
  let c1 := if s.cacheEnabled then (PageCache.Remove s.cache id).2 else s.cache
  match DiskStore.DeleteBlock s.disk id with
  | (true, ds) => (true, { s with cache := c1, disk := ds })
  | (false, ds) => (false, { s with cache := c1, disk := ds })

/-- Observation used in theorem statements: the system's current full
content for a block -- the cached copy when the cache is enabled and
holds the block, otherwise the disk file. -/
def BlockStore.storedContent (s : BlockStore) (id : Nat) : Option (List Nat) :=
  if s.cacheEnabled then
    match PageCache.peek s.cache id with
    | some d => some d
    | none => lookupA id s.disk.files
  else lookupA id s.disk.files

/-!
## BlockManager (fsserver_service.cpp)

The BlockManager in fsserver_service.cpp performs its own file I/O
directly (it does not route through BlockStore): `WriteBlock` opens the
block file with a truncating `std::ofstream` and writes `data` at file
position 0 -- the `offset` parameter is never used for positioning
(lines 112-129).  State: the block files plus the metadata map.
`created_at` (wall clock) and the SHA-256 `checksum` are environment
values with no bearing on the verified properties and are omitted from
the metadata record; `size` and `access_count` are kept.  The embedding
models the executions in which the file-system calls succeed.
-/

def BLOCK_SIZE : Nat := 65536

structure BlockMetadata where
  size : Nat
  accessCount : Nat
  deriving DecidableEq, Repr

structure BlockManager where
  files : List (Nat × List Nat)
  blocksMap : List (Nat × BlockMetadata)
  deriving DecidableEq, Repr

def BlockManager.init : BlockManager := ⟨[], []⟩

/-- fsserver_service.cpp lines 100-147: reject `data.length() >
BLOCK_SIZE`; otherwise truncate-write `data` to the block file (the
`offset` argument is ignored) and install a freshly constructed
metadata record, whose `access_count` is the default 0
(fsserver_service.hpp line 33). -/
def BlockManager.WriteBlock (s : BlockManager) (id : Nat) (data : List Nat)
    (offset : Nat) (sync : Bool) : Bool × BlockManager :=
  if data.length > BLOCK_SIZE then (false, s)
  else
    (true,
     { files := setAssoc id data s.files,
       blocksMap := setAssoc id ⟨data.length, 0⟩ s.blocksMap })

/-- fsserver_service.cpp lines 149-200: fail when no metadata exists;
otherwise bump `access_count` (line 162, before the file is opened),
read the file (fail if it cannot be opened), and extract
`data.substr(offset, read_length)` with the `length == 0` convention
"from offset to end"; `offset >= data.length()` yields empty data with
success. -/
def BlockManager.ReadBlock (s : BlockManager) (id offset length : Nat) :
    Option (List Nat) × BlockManager :=
  match lookupA id s.blocksMap with
  | none => (none, s)
  | some m =>
      let s' := { s with
        blocksMap := updateA id { m with accessCount := m.accessCount + 1 } s.blocksMap }
      match lookupA id s.files with
      | none => (none, s')
      | some d =>
          let readLength := if length = 0 then d.length - min offset d.length else length
          if offset ≥ d.length then (some [], s')
          else (some ((d.drop offset).take readLength), s')

/-- fsserver_service.cpp lines 202-228: fail when no metadata exists;
delete the file and erase the metadata when the file exists, otherwise
fail (leaving the stale metadata in place). -/
def BlockManager.DeleteBlock (s : BlockManager) (id : Nat) : Bool × BlockManager :=
  match lookupA id s.blocksMap with
  | none => (false, s)
  | some _ =>
      match lookupA id s.files with
      | some _ =>
          (true, { files := eraseAssoc id s.files,
                   blocksMap := eraseAssoc id s.blocksMap })
      | none => (false, s)

/-!
## Supporting lemmas
-/

/-- `capacity != 0`, the constructor precondition of spec section 4.2
("constructed with a non-zero capacity"), at the facade level.  An LRU
cache inserts even at capacity 0, so only LFU (whose `Put` guards on
`capacity_ == 0`) restricts. -/
def PageCache.capOk : PageCache → Prop
  | .lru _ => True
  | .lfu s => s.capacity ≠ 0

instance : ∀ c : PageCache, Decidable (PageCache.capOk c) := by
  intro c
  cases c <;> simp [PageCache.capOk] <;> infer_instance

theorem lru_put_lookup (s : LRUCache) (id : Nat) (data : List Nat) (dirty : Bool) :
    lookupA id ((LRUCache.Put s id data dirty).2).entries = some ⟨data, dirty⟩ := by
  unfold LRUCache.Put
  rcases h : lookupA id s.entries with _ | p
  · simp only [h]
    exact lookupA_cons_self ..
  · simp only [h]
    exact lookupA_cons_self ..

theorem lfu_put_lookup (s : LFUCache) (id : Nat) (data : List Nat) (dirty : Bool)
    (hcap : s.capacity ≠ 0) :
    (lookupA id ((LFUCache.Put s id data dirty).2.2).cacheMap).map
      (fun n => (n.data, n.dirty)) = some (data, dirty) := by
  unfold LFUCache.Put
  rw [if_neg hcap]
  rcases h : lookupA id s.cacheMap with _ | n
  · simp only [h]
    rw [lookupA_cons_self]
    rfl
  · simp only [h]
    rw [lookupA_updateA_self id _ n _ h]
    rfl

theorem lru_get_capacity (s : LRUCache) (id : Nat) :
    ((LRUCache.Get s id).2).capacity = s.capacity := by
  unfold LRUCache.Get
  rcases h : lookupA id s.entries with _ | p <;> simp [h]

theorem lfu_get_capacity (s : LFUCache) (id : Nat) :
    ((LFUCache.Get s id).2).capacity = s.capacity := by
  unfold LFUCache.Get
  rcases h : lookupA id s.cacheMap with _ | n <;> simp [h]

theorem pc_capOk_get (c : PageCache) (id : Nat) (h : PageCache.capOk c) :
    PageCache.capOk ((PageCache.Get c id).2) := by
  cases c with
  | lru s => simp [PageCache.Get, PageCache.capOk]
  | lfu s =>
      simp only [PageCache.Get, PageCache.capOk]
      rw [lfu_get_capacity]
      exact h

theorem pc_get_eq_peek (c : PageCache) (id : Nat) :
    (PageCache.Get c id).1 = PageCache.peek c id := by
  cases c with
  | lru s =>
      simp only [PageCache.Get, PageCache.peek, LRUCache.Get]
      rcases h : lookupA id s.entries with _ | p <;> simp [h]
  | lfu s =>
      simp only [PageCache.Get, PageCache.peek, LFUCache.Get]
      rcases h : lookupA id s.cacheMap with _ | n <;> simp [h]

theorem pc_put_peek (c : PageCache) (id : Nat) (data : List Nat) (dirty : Bool)
    (hcap : PageCache.capOk c) :
    PageCache.peek ((PageCache.Put c id data dirty).2.2) id = some data := by
  cases c with
  | lru s =>
      simp only [PageCache.Put, PageCache.peek]
      rw [lru_put_lookup]
      rfl
  | lfu s =>
      simp only [PageCache.Put, PageCache.peek]
      have := lfu_put_lookup s id data dirty hcap
      rcases h : lookupA id ((LFUCache.Put s id data dirty).2.2).cacheMap with _ | n
      · rw [h] at this
        exact Option.noConfusion this
      · rw [h] at this
        have h3 : ((n.data, n.dirty) : List Nat × Bool) = (data, dirty) :=
          Option.some.inj this
        have hd : n.data = data := congrArg Prod.fst h3
        show some n.data = some data
        rw [hd]

theorem pc_get_after_put (c : PageCache) (id : Nat) (data : List Nat) (dirty : Bool)
    (hcap : PageCache.capOk c) :
    (PageCache.Get ((PageCache.Put c id data dirty).2.2) id).1 = some data := by
  rw [pc_get_eq_peek]
  exact pc_put_peek c id data dirty hcap

/-- Extracting the just-written region of a spliced block returns
exactly the written bytes, provided they are nonempty (an empty `length`
argument means "read to the end" in block_store.cpp lines 187-194). -/
theorem extractPortion_spliceAt (p : List Nat) (o : Nat) (d : List Nat)
    (hd : d ≠ []) : extractPortion (spliceAt p o d) o d.length = d := by
  have hge := spliceAt_ge p o d
  have hdpos : 0 < d.length := List.length_pos.mpr hd
  unfold extractPortion
  rw [if_neg (by omega)]
  have hmin : (if d.length = 0 then (spliceAt p o d).length - o
      else min d.length ((spliceAt p o d).length - o)) = d.length := by
    rw [if_neg (by omega)]
    omega
  rw [hmin]
  exact spliceAt_read p o d

theorem lru_remove_not_contains (s : LRUCache) (id : Nat)
    (h : (keys s.entries).Nodup) :
    LRUCache.Contains ((LRUCache.Remove s id).2) id = false := by
  unfold LRUCache.Remove LRUCache.Contains
  rcases hl : lookupA id s.entries with _ | p
  · simp [hl]
  · simp only [hl]
    rw [lookupA_eraseAssoc_self id s.entries h]
    rfl

theorem lfu_remove_not_contains (s : LFUCache) (id : Nat)
    (h : (keys s.cacheMap).Nodup) :
    LFUCache.Contains ((LFUCache.Remove s id).2) id = false := by
  unfold LFUCache.Remove LFUCache.Contains
  rcases hl : lookupA id s.cacheMap with _ | n
  · simp [hl]
  · simp only [hl]
    rw [lookupA_eraseAssoc_self id s.cacheMap h]
    rfl

theorem pc_remove_not_contains (c : PageCache) (id : Nat)
    (h : PageCache.KeysNodup c) :
    PageCache.Contains ((PageCache.Remove c id).2) id = false := by
  cases c with
  | lru s =>
      simp only [PageCache.Remove, PageCache.Contains]
      exact lru_remove_not_contains s id h
  | lfu s =>
      simp only [PageCache.Remove, PageCache.Contains]
      exact lfu_remove_not_contains s id h

/-- Shape of a cache-enabled `BlockStore::WriteBlock`: it always
succeeds and ends in a dirty `Put` of the image spliced over the
current stored content. -/
theorem bs_write_cache_shape (s : BlockStore) (i o : Nat) (d : List Nat)
    (sync : Bool) (hc : s.cacheEnabled = true) :
    ∃ c1 ds1,
      BlockStore.WriteBlock s i o d sync =
        (true,
         ⟨s.cacheEnabled,
          (PageCache.Put c1 i
            (spliceAt ((BlockStore.storedContent s i).getD []) o d) true).2.2,
          applyEvictions ds1
            (PageCache.Put c1 i
              (spliceAt ((BlockStore.storedContent s i).getD []) o d) true).2.1⟩)
      ∧ (PageCache.capOk s.cache → PageCache.capOk c1) := by
  have hcap : PageCache.capOk s.cache → PageCache.capOk ((PageCache.Get s.cache i).2) :=
    pc_capOk_get s.cache i
  unfold BlockStore.WriteBlock
  rw [hc]
  simp only [Bool.not_true, Bool.false_eq_true, if_false]
  rcases hG : PageCache.Get s.cache i with ⟨r1, c1⟩
  have hpeek : PageCache.peek s.cache i = r1 := by
    rw [← pc_get_eq_peek, hG]
  have hc1 : (PageCache.Get s.cache i).2 = c1 := by rw [hG]
  cases r1 with
  | some cached =>
      have hsc : BlockStore.storedContent s i = some cached := by
        unfold BlockStore.storedContent
        rw [hc, if_pos rfl, hpeek]
      refine ⟨c1, s.disk, ?_, ?_⟩
      · rw [hsc]
        rfl
      · intro h
        rw [← hc1]
        exact hcap h
  | none =>
      have hsc : BlockStore.storedContent s i = lookupA i s.disk.files := by
        unfold BlockStore.storedContent
        rw [hc, if_pos rfl, hpeek]
      rcases hf : lookupA i s.disk.files with _ | content
      · have hex : DiskStore.BlockExists s.disk i = false := by
          unfold DiskStore.BlockExists
          rw [hf]
          rfl
        rw [hex]
        simp only [Bool.false_eq_true, if_false]
        refine ⟨c1, s.disk, ?_, ?_⟩
        · rw [hsc, hf]
          rfl
        · intro h
          rw [← hc1]
          exact hcap h
      · have hex : DiskStore.BlockExists s.disk i = true := by
          unfold DiskStore.BlockExists
          rw [hf]
          rfl
        rw [hex]
        simp only [if_true]
        have hr : DiskStore.ReadBlock s.disk i =
            (some content,
             { s.disk with
                totalReads := s.disk.totalReads + 1,
                totalBytesRead := s.disk.totalBytesRead + content.length }) := by
          unfold DiskStore.ReadBlock
          rw [hf]
        rw [hr]
        refine ⟨c1,
          { s.disk with
             totalReads := s.disk.totalReads + 1,
             totalBytesRead := s.disk.totalBytesRead + content.length }, ?_, ?_⟩
        · rw [hsc, hf]
          rfl
        · intro h
          rw [← hc1]
          exact hcap h

/-- The result of a disk write in the all-success environment. -/
def diskWriteOkResult (ds : DiskStore) (i : Nat) (data : List Nat) : DiskStore :=
  { ds with
     files := setAssoc i data ds.files,
     totalWrites := ds.totalWrites + 1,
     totalBytesWritten := ds.totalBytesWritten + data.length }

theorem disk_write_ok (ds : DiskStore) (i : Nat) (data : List Nat) (sync : Bool) :
    DiskStore.WriteBlock ds i data sync IOEnv.ok =
      (true, diskWriteOkResult ds i data) := by
  unfold DiskStore.WriteBlock diskWriteOkResult IOEnv.ok
  simp

/-- Shape of a disk-only `BlockStore::WriteBlock`: it always succeeds;
the block file afterwards holds the spliced image, whose base is the
old file content when `offset > 0` but the empty string when
`offset = 0` (lines 60-68 skip the read there). -/
theorem bs_write_disk_shape (s : BlockStore) (i o : Nat) (d : List Nat)
    (sync : Bool) (hc : s.cacheEnabled = false) :
    ∃ base ds2,
      BlockStore.WriteBlock s i o d sync = (true, ⟨s.cacheEnabled, s.cache, ds2⟩)
      ∧ ds2.files = setAssoc i (spliceAt base o d) s.disk.files
      ∧ (1 ≤ o → base = (lookupA i s.disk.files).getD [])
      ∧ (o = 0 → base = []) := by
  unfold BlockStore.WriteBlock
  rw [hc]
  simp only [Bool.not_false, if_true]
  rcases hf : lookupA i s.disk.files with _ | content
  · have hex : DiskStore.BlockExists s.disk i = false := by
      unfold DiskStore.BlockExists
      rw [hf]
      rfl
    rw [hex]
    simp only [Bool.and_false, Bool.false_eq_true, if_false]
    exact ⟨[], diskWriteOkResult s.disk i (spliceAt [] o d), rfl, rfl,
      fun _ => rfl, fun _ => rfl⟩
  · have hex : DiskStore.BlockExists s.disk i = true := by
      unfold DiskStore.BlockExists
      rw [hf]
      rfl
    rw [hex]
    by_cases ho : 0 < o
    · have hcond : (decide (0 < o) && true) = true := by
        simp [ho]
      rw [hcond]
      simp only [if_true]
      have hr : DiskStore.ReadBlock s.disk i =
          (some content,
           { s.disk with
              totalReads := s.disk.totalReads + 1,
              totalBytesRead := s.disk.totalBytesRead + content.length }) := by
        unfold DiskStore.ReadBlock
        rw [hf]
      rw [hr]
      exact ⟨content,
        diskWriteOkResult
          { s.disk with
             totalReads := s.disk.totalReads + 1,
             totalBytesRead := s.disk.totalBytesRead + content.length }
          i (spliceAt content o d),
        rfl, rfl, fun _ => rfl, fun h0 => absurd h0 (by omega)⟩
    · have hcond : (decide (0 < o) && true) = false := by
        simp [ho]
      rw [hcond]
      simp only [Bool.false_eq_true, if_false]
      exact ⟨[], diskWriteOkResult s.disk i (spliceAt [] o d), rfl, rfl,
        fun h1 => absurd h1 (by omega), fun _ => rfl⟩

theorem bs_read_cache_fst (s : BlockStore) (i o l : Nat) (bd : List Nat)
    (hc : s.cacheEnabled = true) (hg : (PageCache.Get s.cache i).1 = some bd) :
    (BlockStore.ReadBlock s i o l).1 = some (extractPortion bd o l) := by
  unfold BlockStore.ReadBlock
  rw [hc]
  simp only [Bool.not_true, Bool.false_eq_true, if_false]
  rcases hG : PageCache.Get s.cache i with ⟨r1, c1⟩
  rw [hG] at hg
  simp only at hg
  rw [hg]

theorem bs_read_disk_fst (s : BlockStore) (i o l : Nat) (bd : List Nat)
    (hc : s.cacheEnabled = false) (hf : lookupA i s.disk.files = some bd) :
    (BlockStore.ReadBlock s i o l).1 = some (extractPortion bd o l) := by
  unfold BlockStore.ReadBlock
  rw [hc]
  simp only [Bool.not_false, if_true]
  have hr : DiskStore.ReadBlock s.disk i =
      (some bd,
       { s.disk with
          totalReads := s.disk.totalReads + 1,
          totalBytesRead := s.disk.totalBytesRead + bd.length }) := by
    unfold DiskStore.ReadBlock
    rw [hf]
  rw [hr]

/-!
## Claim theorems
-/

/-- C10: `DiskStore::WriteBlock(id, data, sync=true)` returns success
and increments `total_writes` and `total_bytes_written` even when the
post-write open-for-fsync or the fsync call itself fails; the fsync
failure is logged and never changes the returned result. -/
theorem c10_fsync_failure_ignored (ds : DiskStore) (id : Nat) (data : List Nat)
    (openOk fsyncOk : Bool) :
    (DiskStore.WriteBlock ds id data true ⟨true, openOk, fsyncOk⟩).1 = true ∧
    ((DiskStore.WriteBlock ds id data true ⟨true, openOk, fsyncOk⟩).2).totalWrites
      = ds.totalWrites + 1 ∧
    ((DiskStore.WriteBlock ds id data true ⟨true, openOk, fsyncOk⟩).2).totalBytesWritten
      = ds.totalBytesWritten + data.length ∧
    lookupA id ((DiskStore.WriteBlock ds id data true ⟨true, openOk, fsyncOk⟩).2).files
      = some data ∧
    (openOk = true → fsyncOk = false →
      ((DiskStore.WriteBlock ds id data true ⟨true, openOk, fsyncOk⟩).2).log
        = DiskLog.fsyncFailed id :: ds.log) := by
  unfold DiskStore.WriteBlock
  refine ⟨rfl, rfl, rfl, lookupA_setAssoc_self .., ?_⟩
  intro ho hf
  subst ho
  subst hf
  rfl

/-- Witness for C10 at a concrete store and a failing fsync. -/
theorem c10_fsync_failure_ignored_witness :
    (DiskStore.WriteBlock DiskStore.init 1 [5] true ⟨true, true, false⟩).1 = true ∧
    ((DiskStore.WriteBlock DiskStore.init 1 [5] true ⟨true, true, false⟩).2).totalWrites = 1 ∧
    ((DiskStore.WriteBlock DiskStore.init 1 [5] true ⟨true, true, false⟩).2).log
      = [DiskLog.fsyncFailed 1] := by
  have h := c10_fsync_failure_ignored DiskStore.init 1 [5] true false
  exact ⟨h.1, h.2.1, h.2.2.2.2 rfl rfl⟩

/-- C9: when the cache holds a page for `i` but no disk file exists,
`BlockStore::DeleteBlock(i)` returns failure, yet the cached page has
already been removed (the cache `Remove` never invokes the eviction
callback and the disk is untouched, so the block's only copy is
discarded and the pre-call state is not restored). -/
theorem c9_delete_drops_cached_page (s : BlockStore) (i : Nat)
    (hc : s.cacheEnabled = true)
    (hin : PageCache.Contains s.cache i = true)
    (hdisk : DiskStore.BlockExists s.disk i = false)
    (hnd : PageCache.KeysNodup s.cache) :
    (BlockStore.DeleteBlock s i).1 = false ∧
    PageCache.Contains ((BlockStore.DeleteBlock s i).2).cache i = false ∧
    ((BlockStore.DeleteBlock s i).2).disk = s.disk := by
  unfold BlockStore.DeleteBlock
  rw [hc]
  simp only [if_true]
  have hdd : DiskStore.DeleteBlock s.disk i = (false, s.disk) := by
    unfold DiskStore.DeleteBlock
    unfold DiskStore.BlockExists at hdisk
    rcases hl : lookupA i s.disk.files with _ | c
    · rfl
    · rw [hl] at hdisk
      exact absurd hdisk (by simp)
  rw [hdd]
  exact ⟨rfl, pc_remove_not_contains s.cache i hnd, rfl⟩

/-- Witness for C9: LRU cache holding block 1, empty disk. -/
theorem c9_delete_drops_cached_page_witness :
    (BlockStore.DeleteBlock
      ⟨true, PageCache.lru ⟨4, [(1, ⟨[5], true⟩)], 0⟩, DiskStore.init⟩ 1).1 = false ∧
    PageCache.Contains
      ((BlockStore.DeleteBlock
        ⟨true, PageCache.lru ⟨4, [(1, ⟨[5], true⟩)], 0⟩, DiskStore.init⟩ 1).2).cache 1
      = false ∧
    ((BlockStore.DeleteBlock
      ⟨true, PageCache.lru ⟨4, [(1, ⟨[5], true⟩)], 0⟩, DiskStore.init⟩ 1).2).disk
      = DiskStore.init := by
  exact c9_delete_drops_cached_page
    ⟨true, PageCache.lru ⟨4, [(1, ⟨[5], true⟩)], 0⟩, DiskStore.init⟩ 1
    rfl (by decide) (by decide) (by decide)

/-- C8 (amended): a `read_block` call that finds metadata increments its
`access_count` by exactly 1 (even if the file then fails to open), but a
successful `write_block` installs a freshly constructed metadata record,
resetting `access_count` to 0 rather than preserving it. -/
theorem c8_access_count_amended :
    (∀ (s : BlockManager) (id o l : Nat) (m : BlockMetadata),
       lookupA id s.blocksMap = some m →
       lookupA id ((BlockManager.ReadBlock s id o l).2).blocksMap
         = some ⟨m.size, m.accessCount + 1⟩)
    ∧ (∀ (s : BlockManager) (id : Nat) (data : List Nat) (o : Nat) (sync : Bool),
       data.length ≤ BLOCK_SIZE →
       lookupA id ((BlockManager.WriteBlock s id data o sync).2).blocksMap
         = some ⟨data.length, 0⟩) := by
  constructor
  · intro s id o l m hm
    have hsnd : ((BlockManager.ReadBlock s id o l).2).blocksMap
        = updateA id { m with accessCount := m.accessCount + 1 } s.blocksMap := by
      unfold BlockManager.ReadBlock
      rw [hm]
      split
      · next heq => exact absurd heq (by simp)
      · next m2 heq =>
          rw [show m2 = m from (Option.some.inj heq).symm]
          split
          · rfl
          · split
            · split
              · rfl
              · rfl
            · split
              · rfl
              · rfl
    rw [hsnd]
    exact lookupA_updateA_self id _ m _ hm
  · intro s id data o sync hle
    unfold BlockManager.WriteBlock
    rw [if_neg (by omega)]
    exact lookupA_setAssoc_self ..

/-- Witness for C8's amended statement at a concrete manager. -/
theorem c8_access_count_witness :
    lookupA 1 ((BlockManager.ReadBlock ⟨[(1, [5])], [(1, ⟨1, 4⟩)]⟩ 1 0 0).2).blocksMap
      = some ⟨1, 5⟩ ∧
    lookupA 1 ((BlockManager.WriteBlock ⟨[(1, [5])], [(1, ⟨1, 4⟩)]⟩ 1 [6] 0 true).2).blocksMap
      = some ⟨1, 0⟩ := by
  have h := c8_access_count_amended
  exact ⟨h.1 _ 1 0 0 ⟨1, 4⟩ rfl, h.2 _ 1 [6] 0 true (by decide)⟩

/-- Counterexample to C8 as stated: write block 1, read it
(`access_count` becomes 1), then write it again -- `access_count` drops
back to 0, so it is not monotonically non-decreasing across writes and
a write does not preserve the accumulated count. -/
theorem c8_access_count_counterexample :
    (lookupA 1 ((BlockManager.ReadBlock
        (BlockManager.WriteBlock BlockManager.init 1 [5] 0 true).2 1 0 0).2).blocksMap).map
      BlockMetadata.accessCount = some 1 ∧
    (lookupA 1 ((BlockManager.WriteBlock
        (BlockManager.ReadBlock
          (BlockManager.WriteBlock BlockManager.init 1 [5] 0 true).2 1 0 0).2
        1 [6] 0 true).2).blocksMap).map
      BlockMetadata.accessCount = some 0 ∧
    ¬ (1 ≤ (0 : Nat)) := by
  decide

/-- C4: the dirty-page accounting is broken in the code.  After a
single `put(1, d, dirty=true)` into a fresh LRU cache the counter
behind `dirty_page_count()` still reads 0 although one cached page is
dirty: no operation in lru_cache.cpp ever updates `num_dirty_pages_`,
so the spec invariant "`num_dirty_pages` equals the number of dirty
pages" is violated (and the background flusher of main.cpp, which polls
this counter, can never trigger). -/
theorem c4_dirty_count_bug :
    LRUCache.GetDirtyPageCount ((LRUCache.Put (LRUCache.init 2) 1 [7] true).2) = 0 ∧
    LRUCache.actualDirtyCount ((LRUCache.Put (LRUCache.init 2) 1 [7] true).2) = 1 := by
  decide

/-- C3 (amended): only `BlockManager` checks sizes, and it rejects
exactly the calls with `|data| > BLOCK_SIZE` (with no state change);
calls with `offset + |data| > BLOCK_SIZE` but `|data| ≤ BLOCK_SIZE` are
accepted, and `BlockStore::WriteBlock` performs no size check at all,
storing a block longer than BLOCK_SIZE. -/
theorem c3_size_check_amended :
    (∀ (s : BlockManager) (id : Nat) (data : List Nat) (o : Nat) (sync : Bool),
       data.length > BLOCK_SIZE →
       BlockManager.WriteBlock s id data o sync = (false, s))
    ∧ (∀ (s : BlockManager) (id : Nat) (data : List Nat) (o : Nat) (sync : Bool),
       data.length ≤ BLOCK_SIZE →
       (BlockManager.WriteBlock s id data o sync).1 = true)
    ∧ (∀ (s : BlockStore) (id o : Nat) (data : List Nat) (sync : Bool),
       s.cacheEnabled = false → BLOCK_SIZE < o + data.length →
       (BlockStore.WriteBlock s id o data sync).1 = true ∧
       BLOCK_SIZE <
         ((BlockStore.storedContent (BlockStore.WriteBlock s id o data sync).2 id).getD
           []).length) := by
  refine ⟨?_, ?_, ?_⟩
  · intro s id data o sync h
    unfold BlockManager.WriteBlock
    rw [if_pos h]
  · intro s id data o sync h
    unfold BlockManager.WriteBlock
    rw [if_neg (by omega)]
  · intro s id o data sync hc hover
    obtain ⟨base, ds2, heq, hfiles, -, -⟩ := bs_write_disk_shape s id o data sync hc
    rw [heq]
    refine ⟨rfl, ?_⟩
    have hsc : BlockStore.storedContent
        (⟨s.cacheEnabled, s.cache, ds2⟩ : BlockStore) id
        = some (spliceAt base o data) := by
      unfold BlockStore.storedContent
      rw [hc]
      simp only [Bool.false_eq_true, if_false]
      show lookupA id ds2.files = _
      rw [hfiles]
      exact lookupA_setAssoc_self ..
    rw [hsc]
    have := spliceAt_ge base o data
    simp only [Option.getD_some]
    omega

/-- Witness for C3's amended statement: an oversized-payload rejection,
an accepted over-the-boundary offset write, and the unchecked
BlockStore write producing a block longer than BLOCK_SIZE. -/
theorem c3_size_check_witness :
    BlockManager.WriteBlock BlockManager.init 1 (List.replicate 65537 0) 0 true
      = (false, BlockManager.init) ∧
    (BlockManager.WriteBlock BlockManager.init 1 [65] 65536 true).1 = true ∧
    (BlockStore.WriteBlock
      ⟨false, PageCache.lru (LRUCache.init 4), DiskStore.init⟩ 1 65536 [65] true).1
      = true ∧
    BLOCK_SIZE <
      ((BlockStore.storedContent
        (BlockStore.WriteBlock
          ⟨false, PageCache.lru (LRUCache.init 4), DiskStore.init⟩ 1 65536 [65] true).2
        1).getD []).length := by
  have h := c3_size_check_amended
  have hrep : (List.replicate 65537 (0 : Nat)).length > BLOCK_SIZE := by
    rw [List.length_replicate]
    decide
  have h3 := h.2.2 ⟨false, PageCache.lru (LRUCache.init 4), DiskStore.init⟩ 1 65536
    [65] true rfl (by decide)
  exact ⟨h.1 _ 1 _ 0 true hrep, h.2.1 _ 1 [65] 65536 true (by decide), h3.1, h3.2⟩

/-- Counterexample to C3 as stated: the call
`BlockManager::WriteBlock(1, "A", offset = 65536)` has
`offset + |data| = 65537 > BLOCK_SIZE` yet is accepted, not rejected. -/
theorem c3_size_check_counterexample :
    BLOCK_SIZE < 65536 + ([65] : List Nat).length ∧
    (BlockManager.WriteBlock BlockManager.init 1 [65] 65536 true).1 = true := by
  decide

theorem mem_of_getLast?_eq {α : Type} {l : List α} {a : α}
    (h : l.getLast? = some a) : a ∈ l := by
  obtain ⟨hne, hx⟩ := List.mem_getLast?_eq_getLast (Option.mem_def.mpr h)
  rw [hx]
  exact List.getLast_mem hne

theorem lookupA_dropLast_of_getLast {α : Type} (l : List (Nat × α)) (vid : Nat)
    (p : α) (hlast : l.getLast? = some (vid, p)) (hnd : (keys l).Nodup) :
    lookupA vid l.dropLast = none := by
  induction l with
  | nil => simp at hlast
  | cons hd t ih =>
      obtain ⟨k1, v1⟩ := hd
      cases t with
      | nil => simp [lookupA]
      | cons hd2 t2 =>
          have hlast2 : (hd2 :: t2).getLast? = some (vid, p) := by
            rw [← hlast]
            rfl
          have hmem : (vid, p) ∈ hd2 :: t2 := mem_of_getLast?_eq hlast2
          have hvid : vid ∈ keys (hd2 :: t2) := by
            unfold keys
            exact List.mem_map_of_mem Prod.fst hmem
          have hnd' : keys ((k1, v1) :: hd2 :: t2)
              = k1 :: keys (hd2 :: t2) := rfl
          rw [hnd'] at hnd
          have hk1 : k1 ∉ keys (hd2 :: t2) := (List.nodup_cons.mp hnd).1
          have hne : vid ≠ k1 := fun h => hk1 (h ▸ hvid)
          have hdrop : ((k1, v1) :: hd2 :: t2).dropLast
              = (k1, v1) :: (hd2 :: t2).dropLast := rfl
          rw [hdrop]
          show (if vid = k1 then some v1 else lookupA vid (hd2 :: t2).dropLast) = none
          rw [if_neg hne]
          exact ih hlast2 (List.nodup_cons.mp hnd).2

/-- C7: a dirty eviction invokes the registered callback exactly once,
with the victim's id and full data, and then the victim is removed; a
clean eviction invokes no callback.  Stated at the `Put`-on-a-full-cache
level for both policies, whose evictions are the only ones in the
code. -/
theorem c7_eviction_callback :
    (∀ (s : LRUCache) (id : Nat) (data : List Nat) (dirty : Bool) (vid : Nat)
       (p : Page),
       lookupA id s.entries = none → s.entries.length ≥ s.capacity →
       s.entries.getLast? = some (vid, p) →
       (p.dirty = true → (LRUCache.Put s id data dirty).1 = [(vid, p.data)]) ∧
       (p.dirty = false → (LRUCache.Put s id data dirty).1 = []) ∧
       ((keys s.entries).Nodup →
         lookupA vid ((LRUCache.Put s id data dirty).2).entries = none))
    ∧ (∀ (s : LFUCache) (id : Nat) (data : List Nat) (dirty : Bool) (vid : Nat)
       (n : LFUNode),
       s.capacity ≠ 0 → lookupA id s.cacheMap = none →
       s.cacheMap.length ≥ s.capacity →
       (bucketOf s.freqMap s.minFreq).getLast? = some vid →
       lookupA vid s.cacheMap = some n →
       (n.dirty = true → (LFUCache.Put s id data dirty).2.1 = [(vid, n.data)]) ∧
       (n.dirty = false → (LFUCache.Put s id data dirty).2.1 = []) ∧
       ((keys s.cacheMap).Nodup →
         lookupA vid ((LFUCache.Put s id data dirty).2.2).cacheMap = none)) := by
  constructor
  · intro s id data dirty vid p hid hfull hlast
    have hev : LRUCache.EvictLRU s =
        (if p.dirty then [(vid, p.data)] else [],
         { s with entries := s.entries.dropLast }) := by
      unfold LRUCache.EvictLRU
      rw [hlast]
    have hput : LRUCache.Put s id data dirty =
        ((LRUCache.EvictLRU s).1,
         { (LRUCache.EvictLRU s).2 with
            entries := (id, ⟨data, dirty⟩) :: ((LRUCache.EvictLRU s).2).entries }) := by
      unfold LRUCache.Put
      rw [hid]
      simp only [ge_iff_le, hfull, if_pos]
    refine ⟨?_, ?_, ?_⟩
    · intro hdirty
      rw [hput, hev]
      simp [hdirty]
    · intro hclean
      rw [hput, hev]
      simp [hclean]
    · intro hnd
      rw [hput, hev]
      have hvid : vid ∈ keys s.entries := by
        unfold keys
        exact List.mem_map_of_mem Prod.fst (mem_of_getLast?_eq hlast)
      have hid' : id ∉ keys s.entries := (lookupA_eq_none_iff id s.entries).mp hid
      have hne : vid ≠ id := fun h => hid' (h ▸ hvid)
      show (if vid = id then some (⟨data, dirty⟩ : Page)
        else lookupA vid s.entries.dropLast) = none
      rw [if_neg hne]
      exact lookupA_dropLast_of_getLast s.entries vid p hlast hnd
  · intro s id data dirty vid n hcap hid hfull hb hn
    have hev : LFUCache.EvictLFU s =
        (if n.dirty then [(vid, n.data)] else [],
         { s with
            cacheMap := eraseAssoc vid s.cacheMap,
            freqMap := setAssoc s.minFreq (bucketOf s.freqMap s.minFreq).dropLast
              s.freqMap }) := by
      unfold LFUCache.EvictLFU
      rw [hb]
      dsimp only
      rw [hn]
    have hput : LFUCache.Put s id data dirty =
        (true, (LFUCache.EvictLFU s).1,
         { (LFUCache.EvictLFU s).2 with
            cacheMap := (id, ⟨data, dirty, 1⟩) :: ((LFUCache.EvictLFU s).2).cacheMap,
            freqMap := setAssoc 1
              (id :: bucketOf ((LFUCache.EvictLFU s).2).freqMap 1)
              ((LFUCache.EvictLFU s).2).freqMap,
            minFreq := 1 }) := by
      unfold LFUCache.Put
      rw [if_neg hcap, hid]
      simp only [ge_iff_le, hfull, if_pos]
    refine ⟨?_, ?_, ?_⟩
    · intro hdirty
      rw [hput, hev]
      simp [hdirty]
    · intro hclean
      rw [hput, hev]
      simp [hclean]
    · intro hnd
      rw [hput, hev]
      have hvid : vid ∈ keys s.cacheMap := by
        rw [← lookupA_isSome_iff]
        rw [hn]
        rfl
      have hid' : id ∉ keys s.cacheMap := (lookupA_eq_none_iff id s.cacheMap).mp hid
      have hne : vid ≠ id := fun h => hid' (h ▸ hvid)
      show (if vid = id then some (⟨data, dirty, 1⟩ : LFUNode)
        else lookupA vid (eraseAssoc vid s.cacheMap)) = none
      rw [if_neg hne]
      exact lookupA_eraseAssoc_self vid s.cacheMap hnd

/-- Witness for C7 at concrete full caches with a dirty and a clean
victim. -/
theorem c7_eviction_callback_witness :
    (LRUCache.Put ⟨1, [(3, ⟨[9], true⟩)], 0⟩ 4 [8] true).1 = [(3, [9])] ∧
    (LRUCache.Put ⟨1, [(3, ⟨[9], false⟩)], 0⟩ 4 [8] true).1 = [] ∧
    lookupA 3 ((LRUCache.Put ⟨1, [(3, ⟨[9], true⟩)], 0⟩ 4 [8] true).2).entries = none ∧
    (LFUCache.Put ⟨1, [(3, ⟨[9], true, 1⟩)], [(1, [3])], 1⟩ 4 [8] true).2.1
      = [(3, [9])] ∧
    (LFUCache.Put ⟨1, [(3, ⟨[9], false, 1⟩)], [(1, [3])], 1⟩ 4 [8] true).2.1 = [] ∧
    lookupA 3
      ((LFUCache.Put ⟨1, [(3, ⟨[9], true, 1⟩)], [(1, [3])], 1⟩ 4 [8] true).2.2).cacheMap
      = none := by
  have h := c7_eviction_callback
  refine ⟨?_, ?_, ?_, ?_, ?_, ?_⟩
  · exact (h.1 ⟨1, [(3, ⟨[9], true⟩)], 0⟩ 4 [8] true 3 ⟨[9], true⟩ rfl (by decide)
      rfl).1 rfl
  · exact (h.1 ⟨1, [(3, ⟨[9], false⟩)], 0⟩ 4 [8] true 3 ⟨[9], false⟩ rfl (by decide)
      rfl).2.1 rfl
  · exact (h.1 ⟨1, [(3, ⟨[9], true⟩)], 0⟩ 4 [8] true 3 ⟨[9], true⟩ rfl (by decide)
      rfl).2.2 (by decide)
  · exact (h.2 ⟨1, [(3, ⟨[9], true, 1⟩)], [(1, [3])], 1⟩ 4 [8] true 3 ⟨[9], true, 1⟩
      (by decide) rfl (by decide) rfl rfl).1 rfl
  · exact (h.2 ⟨1, [(3, ⟨[9], false, 1⟩)], [(1, [3])], 1⟩ 4 [8] true 3 ⟨[9], false, 1⟩
      (by decide) rfl (by decide) rfl rfl).2.1 rfl
  · exact (h.2 ⟨1, [(3, ⟨[9], true, 1⟩)], [(1, [3])], 1⟩ 4 [8] true 3 ⟨[9], true, 1⟩
      (by decide) rfl (by decide) rfl rfl).2.2 (by decide)

/-- C1 (amended): with nonempty `d` and `o + |d| ≤ BLOCK_SIZE`, a
successful `write_block(i, o, d, sync)` followed by
`read_block(i, o, |d|)` returns exactly `d` at the BlockStore interface,
both in disk-only mode and in cache-enabled mode (with the spec's
non-zero cache capacity); at the BlockManager interface the write
offset is ignored, so the round-trip holds when `o = 0`. -/
theorem c1_roundtrip_amended (i o : Nat) (d : List Nat) (sync : Bool)
    (hd : d ≠ []) (hB : o + d.length ≤ BLOCK_SIZE) :
    (∀ s : BlockStore, s.cacheEnabled = false →
       (BlockStore.WriteBlock s i o d sync).1 = true ∧
       (BlockStore.ReadBlock (BlockStore.WriteBlock s i o d sync).2 i o d.length).1
         = some d)
    ∧ (∀ s : BlockStore, s.cacheEnabled = true → PageCache.capOk s.cache →
       (BlockStore.WriteBlock s i o d sync).1 = true ∧
       (BlockStore.ReadBlock (BlockStore.WriteBlock s i o d sync).2 i o d.length).1
         = some d)
    ∧ (∀ s : BlockManager,
       (BlockManager.WriteBlock s i d 0 sync).1 = true ∧
       (BlockManager.ReadBlock (BlockManager.WriteBlock s i d 0 sync).2 i 0 d.length).1
         = some d) := by
  refine ⟨?_, ?_, ?_⟩
  · intro s hc
    obtain ⟨base, ds2, heq, hfiles, -, -⟩ := bs_write_disk_shape s i o d sync hc
    rw [heq]
    refine ⟨rfl, ?_⟩
    have hf' : lookupA i ((⟨s.cacheEnabled, s.cache, ds2⟩ : BlockStore)).disk.files
        = some (spliceAt base o d) := by
      show lookupA i ds2.files = _
      rw [hfiles]
      exact lookupA_setAssoc_self ..
    rw [bs_read_disk_fst ⟨s.cacheEnabled, s.cache, ds2⟩ i o d.length _ hc hf']
    rw [extractPortion_spliceAt _ _ _ hd]
  · intro s hc hcap
    obtain ⟨c1, ds1, heq, hcap1⟩ := bs_write_cache_shape s i o d sync hc
    rw [heq]
    refine ⟨rfl, ?_⟩
    have hget : (PageCache.Get
        ((⟨s.cacheEnabled,
           (PageCache.Put c1 i
             (spliceAt ((BlockStore.storedContent s i).getD []) o d) true).2.2,
           applyEvictions ds1
             (PageCache.Put c1 i
               (spliceAt ((BlockStore.storedContent s i).getD []) o d) true).2.1⟩ :
          BlockStore)).cache i).1
        = some (spliceAt ((BlockStore.storedContent s i).getD []) o d) :=
      pc_get_after_put c1 i _ true (hcap1 hcap)
    rw [bs_read_cache_fst
      ⟨s.cacheEnabled,
       (PageCache.Put c1 i
         (spliceAt ((BlockStore.storedContent s i).getD []) o d) true).2.2,
       applyEvictions ds1
         (PageCache.Put c1 i
           (spliceAt ((BlockStore.storedContent s i).getD []) o d) true).2.1⟩
      i o d.length _ hc hget]
    rw [extractPortion_spliceAt _ _ _ hd]
  · intro s
    have hle : ¬ d.length > BLOCK_SIZE := by omega
    have hw : BlockManager.WriteBlock s i d 0 sync =
        (true, { files := setAssoc i d s.files,
                 blocksMap := setAssoc i ⟨d.length, 0⟩ s.blocksMap }) := by
      unfold BlockManager.WriteBlock
      rw [if_neg hle]
    rw [hw]
    refine ⟨rfl, ?_⟩
    unfold BlockManager.ReadBlock
    rw [lookupA_setAssoc_self]
    dsimp only
    rw [lookupA_setAssoc_self]
    dsimp only
    have h0 : ¬ ((0 : Nat) ≥ d.length) := by
      have := List.length_pos.mpr hd
      omega
    rw [if_neg (by omega : ¬ d.length = 0), if_neg h0]
    simp [List.take_length]

/-- Witness for C1's amended statement: the round-trip at all four
interfaces on concrete fresh states. -/
theorem c1_roundtrip_witness :
    (BlockStore.ReadBlock
       (BlockStore.WriteBlock ⟨false, PageCache.lru (LRUCache.init 4), DiskStore.init⟩
         1 3 [7, 8] true).2 1 3 2).1 = some [7, 8] ∧
    (BlockStore.ReadBlock
       (BlockStore.WriteBlock ⟨true, PageCache.lru (LRUCache.init 4), DiskStore.init⟩
         1 3 [7, 8] true).2 1 3 2).1 = some [7, 8] ∧
    (BlockStore.ReadBlock
       (BlockStore.WriteBlock ⟨true, PageCache.lfu (LFUCache.init 4), DiskStore.init⟩
         1 3 [7, 8] true).2 1 3 2).1 = some [7, 8] ∧
    (BlockManager.ReadBlock
       (BlockManager.WriteBlock BlockManager.init 1 [7, 8] 0 true).2 1 0 2).1
      = some [7, 8] := by
  have h := c1_roundtrip_amended 1 3 [7, 8] true (by decide) (by decide)
  exact ⟨(h.1 _ rfl).2, (h.2.1 _ rfl (by decide)).2, (h.2.1 _ rfl (by decide)).2,
    (h.2.2 _).2⟩

/-- Counterexample to C1 as stated: at the BlockManager interface with
offset 1 and `d = [10, 11]` (so `o + |d| ≤ BLOCK_SIZE`), the write
succeeds but the read-back returns `[11]`, not `d`, because
`BlockManager::WriteBlock` writes `data` at file position 0 and ignores
the offset. -/
theorem c1_roundtrip_counterexample :
    1 + ([10, 11] : List Nat).length ≤ BLOCK_SIZE ∧
    (BlockManager.WriteBlock BlockManager.init 1 [10, 11] 1 true).1 = true ∧
    (BlockManager.ReadBlock
       (BlockManager.WriteBlock BlockManager.init 1 [10, 11] 1 true).2 1 1 2).1
      = some [11] ∧
    some [11] ≠ some ([10, 11] : List Nat) := by
  decide

/-- C2 (amended): in cache-enabled mode (non-zero capacity) the stored
full content after `write_block(i, o, d, s)` is `p[0..o] · d ·
p[o+|d|..]` with zero padding, where `p` is the previous stored
content; in disk-only mode this holds for `o ≥ 1`, but for `o = 0` the
code skips reading the old block and the stored content becomes exactly
`d`; the BlockManager interface ignores the offset entirely. -/
theorem c2_splice_amended (i o : Nat) (d : List Nat) (sync : Bool) :
    (∀ s : BlockStore, s.cacheEnabled = true → PageCache.capOk s.cache →
       BlockStore.storedContent (BlockStore.WriteBlock s i o d sync).2 i
         = some (spliceAt ((BlockStore.storedContent s i).getD []) o d))
    ∧ (∀ s : BlockStore, s.cacheEnabled = false → 1 ≤ o →
       BlockStore.storedContent (BlockStore.WriteBlock s i o d sync).2 i
         = some (spliceAt ((BlockStore.storedContent s i).getD []) o d)) := by
  constructor
  · intro s hc hcap
    obtain ⟨c1, ds1, heq, hcap1⟩ := bs_write_cache_shape s i o d sync hc
    rw [heq]
    unfold BlockStore.storedContent
    rw [hc]
    simp only [if_true]
    rw [pc_put_peek c1 i _ true (hcap1 hcap)]
  · intro s hc ho
    obtain ⟨base, ds2, heq, hfiles, hbase, -⟩ := bs_write_disk_shape s i o d sync hc
    rw [heq]
    unfold BlockStore.storedContent
    rw [hc]
    simp only [Bool.false_eq_true, if_false]
    show lookupA i ds2.files = _
    rw [hfiles, lookupA_setAssoc_self, hbase ho]

/-- Witness for C2's amended statement at concrete states that already
hold content for the block. -/
theorem c2_splice_witness :
    BlockStore.storedContent
      (BlockStore.WriteBlock
        ⟨true, PageCache.lru ⟨4, [(1, ⟨[10, 11], true⟩)], 0⟩, DiskStore.init⟩
        1 0 [12] true).2 1 = some [12, 11] ∧
    BlockStore.storedContent
      (BlockStore.WriteBlock
        ⟨false, PageCache.lru (LRUCache.init 4),
         { DiskStore.init with files := [(1, [10, 11])] }⟩
        1 1 [12] true).2 1 = some [10, 12] := by
  have h1 := (c2_splice_amended 1 0 [12] true).1
    ⟨true, PageCache.lru ⟨4, [(1, ⟨[10, 11], true⟩)], 0⟩, DiskStore.init⟩ rfl
    (by decide)
  have h2 := (c2_splice_amended 1 1 [12] true).2
    ⟨false, PageCache.lru (LRUCache.init 4),
     { DiskStore.init with files := [(1, [10, 11])] }⟩ rfl (by decide)
  exact ⟨h1, h2⟩

/-- Counterexample to C2 as stated: in disk-only mode, after the block
holds `[10, 11]`, a `write_block(1, 0, [12], s)` leaves the stored
content `[12]` -- the old suffix `[11]` is discarded instead of
preserved as `p[0..0] · [12] · p[1..] = [12, 11]`. -/
theorem c2_splice_counterexample :
    BlockStore.storedContent
      (BlockStore.WriteBlock
        (BlockStore.WriteBlock
          ⟨false, PageCache.lru (LRUCache.init 4), DiskStore.init⟩ 1 0 [10, 11] true).2
        1 0 [12] true).2 1 = some [12] ∧
    spliceAt
      ((BlockStore.storedContent
        (BlockStore.WriteBlock
          ⟨false, PageCache.lru (LRUCache.init 4), DiskStore.init⟩ 1 0 [10, 11] true).2
        1).getD []) 0 [12] = [12, 11] ∧
    some [12] ≠ some ([12, 11] : List Nat) := by
  decide

/-!
## C5 machinery: sequences of `put` calls on an LRU cache

`upTo a n` is the id sequence `[a, a+1, ..., a+n-1]`; `lruPutSeq` folds
`Put` over it with per-id payloads, matching "inserting ids `1..k` in
order" from the claim.
-/

def upTo (a n : Nat) : List Nat :=
  match n with
  | 0 => []
  | Nat.succ m => a :: upTo (a + 1) m

def lruPutSeq (s : LRUCache) : List Nat → LRUCache
  | [] => s
  | i :: t => lruPutSeq (LRUCache.Put s i [i] true).2 t

theorem length_upTo (a n : Nat) : (upTo a n).length = n := by
  induction n generalizing a with
  | zero => rfl
  | succ m ih => simp [upTo, ih]

theorem mem_upTo (m a n : Nat) : m ∈ upTo a n ↔ a ≤ m ∧ m < a + n := by
  induction n generalizing a with
  | zero => simp [upTo]
  | succ p ih =>
      simp [upTo, ih]
      omega

theorem upTo_concat (a n : Nat) : upTo a (n + 1) = upTo a n ++ [a + n] := by
  induction n generalizing a with
  | zero => rfl
  | succ m ih =>
      show a :: upTo (a + 1) (m + 1) = (a :: upTo (a + 1) m) ++ [a + (m + 1)]
      rw [ih (a + 1)]
      simp
      omega

theorem lruPutSeq_append (l1 l2 : List Nat) : ∀ s : LRUCache,
    lruPutSeq s (l1 ++ l2) = lruPutSeq (lruPutSeq s l1) l2 := by
  induction l1 with
  | nil => intro s; rfl
  | cons i t ih => intro s; exact ih ((LRUCache.Put s i [i] true).2)

theorem lru_evict_capacity (s : LRUCache) :
    ((LRUCache.EvictLRU s).2).capacity = s.capacity := by
  unfold LRUCache.EvictLRU
  rcases h : s.entries.getLast? with _ | ⟨v, p⟩ <;> rfl

theorem lru_put_capacity (s : LRUCache) (id : Nat) (data : List Nat) (dirty : Bool) :
    ((LRUCache.Put s id data dirty).2).capacity = s.capacity := by
  unfold LRUCache.Put
  split
  · rfl
  · show ((if s.entries.length ≥ s.capacity
      then LRUCache.EvictLRU s else ([], s)).2).capacity = s.capacity
    split
    · exact lru_evict_capacity s
    · rfl

theorem lruPutSeq_capacity (l : List Nat) : ∀ s : LRUCache,
    (lruPutSeq s l).capacity = s.capacity := by
  induction l with
  | nil => intro s; rfl
  | cons i t ih =>
      intro s
      show (lruPutSeq (LRUCache.Put s i [i] true).2 t).capacity = s.capacity
      rw [ih, lru_put_capacity]

theorem keys_dropLast {α : Type} (l : List (Nat × α)) :
    keys l.dropLast = (keys l).dropLast :=
  List.map_dropLast Prod.fst l

theorem lru_evict_keys (s : LRUCache) :
    keys ((LRUCache.EvictLRU s).2).entries = (keys s.entries).dropLast := by
  unfold LRUCache.EvictLRU
  rcases h : s.entries.getLast? with _ | ⟨v, p⟩
  · rw [List.getLast?_eq_none_iff.mp h]
    rfl
  · exact keys_dropLast s.entries

theorem lru_put_fresh_keys (s : LRUCache) (id : Nat) (data : List Nat) (dirty : Bool)
    (hid : id ∉ keys s.entries) (hlt : s.entries.length < s.capacity) :
    keys ((LRUCache.Put s id data dirty).2).entries = id :: keys s.entries := by
  unfold LRUCache.Put
  rw [(lookupA_eq_none_iff id s.entries).mpr hid]
  dsimp only
  rw [if_neg (by omega : ¬ s.entries.length ≥ s.capacity)]
  rfl

theorem lru_put_full_fresh_keys (s : LRUCache) (id : Nat) (data : List Nat)
    (dirty : Bool) (hid : id ∉ keys s.entries)
    (hful : s.entries.length ≥ s.capacity) :
    keys ((LRUCache.Put s id data dirty).2).entries
      = id :: (keys s.entries).dropLast := by
  unfold LRUCache.Put
  rw [(lookupA_eq_none_iff id s.entries).mpr hid]
  dsimp only
  rw [if_pos hful]
  show id :: keys ((LRUCache.EvictLRU s).2).entries = _
  rw [lru_evict_keys]

theorem lru_get_present_keys (s : LRUCache) (id : Nat)
    (hid : id ∈ keys s.entries) :
    keys ((LRUCache.Get s id).2).entries = id :: (keys s.entries).erase id := by
  unfold LRUCache.Get
  rcases h : lookupA id s.entries with _ | p
  · exact absurd hid ((lookupA_eq_none_iff id s.entries).mp h)
  · dsimp only
    show id :: keys (eraseAssoc id s.entries) = _
    rw [keys_eraseAssoc]

theorem lru_contains_iff (s : LRUCache) (id : Nat) :
    LRUCache.Contains s id = true ↔ id ∈ keys s.entries :=
  lookupA_isSome_iff id s.entries

theorem lru_not_contains_iff (s : LRUCache) (id : Nat) :
    LRUCache.Contains s id = false ↔ id ∉ keys s.entries := by
  rw [← lru_contains_iff]
  cases h : LRUCache.Contains s id <;> simp

theorem lru_entries_length_eq (s : LRUCache) :
    s.entries.length = (keys s.entries).length := by
  unfold keys
  rw [List.length_map]

theorem lruPutSeq_keys (k : Nat) : ∀ n, n ≤ k →
    keys ((lruPutSeq (LRUCache.init k) (upTo 1 n))).entries = (upTo 1 n).reverse := by
  intro n
  induction n with
  | zero => intro _; rfl
  | succ m ih =>
      intro hle
      rw [upTo_concat, lruPutSeq_append]
      have hkeys : keys ((lruPutSeq (LRUCache.init k) (upTo 1 m))).entries
          = (upTo 1 m).reverse := ih (by omega)
      have hfresh : (1 + m) ∉ keys ((lruPutSeq (LRUCache.init k) (upTo 1 m))).entries := by
        rw [hkeys]
        intro hmem
        rw [List.mem_reverse, mem_upTo] at hmem
        omega
      have hlen : ((lruPutSeq (LRUCache.init k) (upTo 1 m))).entries.length = m := by
        rw [lru_entries_length_eq, hkeys, List.length_reverse, length_upTo]
      have hcap : ((lruPutSeq (LRUCache.init k) (upTo 1 m))).capacity = k :=
        lruPutSeq_capacity (upTo 1 m) (LRUCache.init k)
      show keys ((LRUCache.Put (lruPutSeq (LRUCache.init k) (upTo 1 m))
        (1 + m) [1 + m] true).2).entries = (upTo 1 m ++ [1 + m]).reverse
      rw [lru_put_fresh_keys _ _ _ _ hfresh (by rw [hlen, hcap]; omega)]
      rw [hkeys, List.reverse_append]
      rfl

/-- C5 (amended): in an LRU cache of capacity `k ≥ 1`, inserting ids
`1..k+1` in order evicts exactly id 1; after inserting `1..k`, then
`get(1)`, then inserting `k+1`, exactly id 2 is absent -- provided
`k ≥ 2`.  For `k = 1` the second scenario instead evicts id 1 (the only
page), so the claim's "exactly id 2 is absent" requires `k ≥ 2`. -/
theorem c5_lru_eviction_amended (k : Nat) (hk : 1 ≤ k) :
    (LRUCache.Contains (lruPutSeq (LRUCache.init k) (upTo 1 (k + 1))) 1 = false ∧
     ∀ j, 2 ≤ j → j ≤ k + 1 →
       LRUCache.Contains (lruPutSeq (LRUCache.init k) (upTo 1 (k + 1))) j = true)
    ∧ (2 ≤ k →
       LRUCache.Contains
         ((LRUCache.Put ((LRUCache.Get (lruPutSeq (LRUCache.init k) (upTo 1 k)) 1).2)
           (k + 1) [k + 1] true).2) 2 = false ∧
       ∀ j, 1 ≤ j → j ≤ k + 1 → j ≠ 2 →
         LRUCache.Contains
           ((LRUCache.Put ((LRUCache.Get (lruPutSeq (LRUCache.init k) (upTo 1 k)) 1).2)
             (k + 1) [k + 1] true).2) j = true) := by
  constructor
  · obtain ⟨k', rfl⟩ : ∃ k', k = k' + 1 := ⟨k - 1, by omega⟩
    have hkeysS := lruPutSeq_keys (k' + 1) (k' + 1) le_rfl
    have hfresh : (1 + (k' + 1)) ∉
        keys ((lruPutSeq (LRUCache.init (k' + 1)) (upTo 1 (k' + 1)))).entries := by
      rw [hkeysS]
      intro hmem
      rw [List.mem_reverse, mem_upTo] at hmem
      omega
    have hlen : ((lruPutSeq (LRUCache.init (k' + 1)) (upTo 1 (k' + 1)))).entries.length
        = k' + 1 := by
      rw [lru_entries_length_eq, hkeysS, List.length_reverse, length_upTo]
    have hcap : ((lruPutSeq (LRUCache.init (k' + 1)) (upTo 1 (k' + 1)))).capacity
        = k' + 1 := lruPutSeq_capacity (upTo 1 (k' + 1)) (LRUCache.init (k' + 1))
    have hkeysF : keys ((lruPutSeq (LRUCache.init (k' + 1))
        (upTo 1 (k' + 1 + 1)))).entries
        = (1 + (k' + 1)) :: (upTo 2 k').reverse := by
      rw [upTo_concat, lruPutSeq_append]
      show keys ((LRUCache.Put (lruPutSeq (LRUCache.init (k' + 1)) (upTo 1 (k' + 1)))
        (1 + (k' + 1)) [1 + (k' + 1)] true).2).entries = _
      rw [lru_put_full_fresh_keys _ _ _ _ hfresh (by rw [hlen, hcap])]
      rw [hkeysS]
      congr 1
      rw [show upTo 1 (k' + 1) = 1 :: upTo 2 k' from rfl, List.reverse_cons,
        List.dropLast_concat]
    constructor
    · rw [lru_not_contains_iff, hkeysF]
      intro hmem
      rcases List.mem_cons.mp hmem with h | h
      · omega
      · rw [List.mem_reverse, mem_upTo] at h
        omega
    · intro j hj2 hjk
      rw [lru_contains_iff, hkeysF]
      by_cases hj : j = 1 + (k' + 1)
      · rw [hj]
        exact List.mem_cons_self ..
      · apply List.mem_cons_of_mem
        rw [List.mem_reverse, mem_upTo]
        omega
  · intro hk2
    obtain ⟨m, rfl⟩ : ∃ m, k = m + 2 := ⟨k - 2, by omega⟩
    have hkeysS := lruPutSeq_keys (m + 2) (m + 2) le_rfl
    have h1mem : (1 : Nat) ∈
        keys ((lruPutSeq (LRUCache.init (m + 2)) (upTo 1 (m + 2)))).entries := by
      rw [hkeysS, List.mem_reverse, mem_upTo]
      omega
    have hkeysG : keys (((LRUCache.Get
        (lruPutSeq (LRUCache.init (m + 2)) (upTo 1 (m + 2))) 1).2)).entries
        = 1 :: (upTo 2 (m + 1)).reverse := by
      rw [lru_get_present_keys _ _ h1mem, hkeysS]
      congr 1
      rw [show upTo 1 (m + 2) = 1 :: upTo 2 (m + 1) from rfl, List.reverse_cons]
      have hnotin : (1 : Nat) ∉ (upTo 2 (m + 1)).reverse := by
        intro hmem
        rw [List.mem_reverse, mem_upTo] at hmem
        omega
      rw [List.erase_append_right _ hnotin, List.erase_cons_head, List.append_nil]
    have hfresh : (m + 2 + 1) ∉ keys (((LRUCache.Get
        (lruPutSeq (LRUCache.init (m + 2)) (upTo 1 (m + 2))) 1).2)).entries := by
      rw [hkeysG]
      intro hmem
      rcases List.mem_cons.mp hmem with h | h
      · omega
      · rw [List.mem_reverse, mem_upTo] at h
        omega
    have hlen : (((LRUCache.Get
        (lruPutSeq (LRUCache.init (m + 2)) (upTo 1 (m + 2))) 1).2)).entries.length
        = m + 2 := by
      rw [lru_entries_length_eq, hkeysG]
      simp [List.length_reverse, length_upTo]
    have hcap : (((LRUCache.Get
        (lruPutSeq (LRUCache.init (m + 2)) (upTo 1 (m + 2))) 1).2)).capacity
        = m + 2 := by
      rw [lru_get_capacity]
      exact lruPutSeq_capacity (upTo 1 (m + 2)) (LRUCache.init (m + 2))
    have hkeysP : keys ((LRUCache.Put ((LRUCache.Get
        (lruPutSeq (LRUCache.init (m + 2)) (upTo 1 (m + 2))) 1).2)
        (m + 2 + 1) [m + 2 + 1] true).2).entries
        = (m + 2 + 1) :: 1 :: (upTo 3 m).reverse := by
      rw [lru_put_full_fresh_keys _ _ _ _ hfresh (by rw [hlen, hcap])]
      rw [hkeysG]
      congr 1
      rw [show upTo 2 (m + 1) = 2 :: upTo 3 m from rfl, List.reverse_cons,
        ← List.cons_append, List.dropLast_concat]
    constructor
    · rw [lru_not_contains_iff, hkeysP]
      intro hmem
      rcases List.mem_cons.mp hmem with h | h
      · omega
      · rcases List.mem_cons.mp h with h2 | h2
        · omega
        · rw [List.mem_reverse, mem_upTo] at h2
          omega
    · intro j hj1 hjk hjne
      rw [lru_contains_iff, hkeysP]
      by_cases hja : j = m + 2 + 1
      · rw [hja]
        exact List.mem_cons_self ..
      · apply List.mem_cons_of_mem
        by_cases hjb : j = 1
        · rw [hjb]
          exact List.mem_cons_self ..
        · apply List.mem_cons_of_mem
          rw [List.mem_reverse, mem_upTo]
          omega

/-- Witness for C5's amended statement at capacity 3. -/
theorem c5_lru_eviction_witness :
    LRUCache.Contains (lruPutSeq (LRUCache.init 3) (upTo 1 4)) 1 = false ∧
    LRUCache.Contains (lruPutSeq (LRUCache.init 3) (upTo 1 4)) 4 = true ∧
    LRUCache.Contains
      ((LRUCache.Put ((LRUCache.Get (lruPutSeq (LRUCache.init 3) (upTo 1 3)) 1).2)
        4 [4] true).2) 2 = false ∧
    LRUCache.Contains
      ((LRUCache.Put ((LRUCache.Get (lruPutSeq (LRUCache.init 3) (upTo 1 3)) 1).2)
        4 [4] true).2) 1 = true := by
  have h := c5_lru_eviction_amended 3 (by decide)
  exact ⟨h.1.1, h.1.2 4 (by decide) (by decide), (h.2 (by decide)).1,
    (h.2 (by decide)).2 1 (by decide) (by decide) (by decide)⟩

/-- Counterexample to C5 as stated: with `k = 1` the second scenario
(`put(1)`, `get(1)`, `put(2)`) evicts id 1 -- the only page -- so id 2
is present and id 1 absent, contradicting "exactly id 2 is absent and
all other ids are present". -/
theorem c5_lru_eviction_counterexample :
    LRUCache.Contains
      ((LRUCache.Put ((LRUCache.Get (lruPutSeq (LRUCache.init 1) (upTo 1 1)) 1).2)
        2 [2] true).2) 2 = true ∧
    LRUCache.Contains
      ((LRUCache.Put ((LRUCache.Get (lruPutSeq (LRUCache.init 1) (upTo 1 1)) 1).2)
        2 [2] true).2) 1 = false := by
  decide

/-!
## C6: LFU eviction
-/

/-- The claim's capacity-2 scenario: `put(1)`, `put(2)`, `get(1)`,
`get(1)`, `put(3)`. -/
def lfuC6state : LFUCache :=
  (LFUCache.Put
    ((LFUCache.Get
      ((LFUCache.Get
        ((LFUCache.Put ((LFUCache.Put (LFUCache.init 2) 1 [65] true).2.2)
          2 [66] true).2.2) 1).2) 1).2)
    3 [67] true).2.2

/-- A capacity-2 tie-break scenario: `put(1)`, `put(2)`, `put(3)` --
ids 1 and 2 both have frequency 1 and id 1 is the least recently used
of the two, so id 1 is evicted. -/
def lfuC6tieState : LFUCache :=
  (LFUCache.Put ((LFUCache.Put ((LFUCache.Put (LFUCache.init 2) 1 [65] true).2.2)
    2 [66] true).2.2) 3 [67] true).2.2

theorem lfu_put_full_cacheMap (s : LFUCache) (id : Nat) (data : List Nat)
    (dirty : Bool) (vid : Nat) (hcap : s.capacity ≠ 0)
    (hid : lookupA id s.cacheMap = none) (hfull : s.cacheMap.length ≥ s.capacity)
    (hv : (bucketOf s.freqMap s.minFreq).getLast? = some vid) :
    ((LFUCache.Put s id data dirty).2.2).cacheMap
      = (id, ⟨data, dirty, 1⟩) :: eraseAssoc vid s.cacheMap := by
  unfold LFUCache.Put
  rw [if_neg hcap, hid]
  dsimp only
  rw [if_pos hfull]
  show (id, (⟨data, dirty, 1⟩ : LFUNode)) :: ((LFUCache.EvictLFU s).2).cacheMap = _
  congr 1
  unfold LFUCache.EvictLFU
  rw [hv]

/-- C6: the capacity-2 scenario `put(1)`, `put(2)`, `get(1)`, `get(1)`,
`put(3)` leaves ids 1 and 3 present and id 2 absent; with equal
frequencies the least recently used page is evicted (`put(1)`,
`put(2)`, `put(3)` evicts id 1); and in general a `put` on a full cache
that evicts removes the tail of the `min_freq_` recency list, a page of
minimal access frequency among all cached pages, and afterwards that
page is gone while the new one is present.  The invariant hypotheses
(`min_freq_` bounds every node's frequency, the `min_freq_` list holds
exactly nodes of that frequency, map keys distinct) are spec section 3
cache invariants 3-5, which hold at rest. -/
theorem c6_lfu_eviction (s : LFUCache) (id : Nat) (data : List Nat) (dirty : Bool)
    (vid : Nat)
    (hmin : ∀ p ∈ s.cacheMap, s.minFreq ≤ p.2.freq)
    (hbucket : ∀ i ∈ bucketOf s.freqMap s.minFreq,
      (lookupA i s.cacheMap).map LFUNode.freq = some s.minFreq)
    (hnd : (keys s.cacheMap).Nodup)
    (hcap : s.capacity ≠ 0)
    (hid : lookupA id s.cacheMap = none)
    (hfull : s.cacheMap.length ≥ s.capacity)
    (hv : (bucketOf s.freqMap s.minFreq).getLast? = some vid) :
    (LFUCache.Contains lfuC6state 1 = true ∧
     LFUCache.Contains lfuC6state 2 = false ∧
     LFUCache.Contains lfuC6state 3 = true ∧
     LFUCache.Contains lfuC6tieState 1 = false ∧
     LFUCache.Contains lfuC6tieState 2 = true ∧
     LFUCache.Contains lfuC6tieState 3 = true) ∧
    (∃ n : LFUNode, lookupA vid s.cacheMap = some n ∧
      n.freq = s.minFreq ∧
      (∀ p ∈ s.cacheMap, n.freq ≤ p.2.freq) ∧
      lookupA vid ((LFUCache.Put s id data dirty).2.2).cacheMap = none ∧
      lookupA id ((LFUCache.Put s id data dirty).2.2).cacheMap
        = some ⟨data, dirty, 1⟩) := by
  refine ⟨by decide, ?_⟩
  have hvb : vid ∈ bucketOf s.freqMap s.minFreq := mem_of_getLast?_eq hv
  have hvf := hbucket vid hvb
  rcases hn : lookupA vid s.cacheMap with _ | n
  · rw [hn] at hvf
    exact Option.noConfusion hvf
  · rw [hn] at hvf
    have hfreq : n.freq = s.minFreq := Option.some.inj hvf
    have hvid : vid ∈ keys s.cacheMap := by
      rw [← lookupA_isSome_iff, hn]
      rfl
    have hne : vid ≠ id :=
      fun h => ((lookupA_eq_none_iff id s.cacheMap).mp hid) (h ▸ hvid)
    have hcm := lfu_put_full_cacheMap s id data dirty vid hcap hid hfull hv
    refine ⟨n, rfl, hfreq, ?_, ?_, ?_⟩
    · intro p hp
      rw [hfreq]
      exact hmin p hp
    · rw [hcm]
      show (if vid = id then some (⟨data, dirty, 1⟩ : LFUNode)
        else lookupA vid (eraseAssoc vid s.cacheMap)) = none
      rw [if_neg hne]
      exact lookupA_eraseAssoc_self vid s.cacheMap hnd
    · rw [hcm]
      exact lookupA_cons_self ..

/-- Witness for C6 at a concrete full cache whose `min_freq_` list
holds id 6 (frequency 1) while id 5 has frequency 3. -/
theorem c6_lfu_eviction_witness :
    (LFUCache.Contains lfuC6state 1 = true ∧
     LFUCache.Contains lfuC6state 2 = false ∧
     LFUCache.Contains lfuC6state 3 = true ∧
     LFUCache.Contains lfuC6tieState 1 = false ∧
     LFUCache.Contains lfuC6tieState 2 = true ∧
     LFUCache.Contains lfuC6tieState 3 = true) ∧
    (∃ n : LFUNode,
      lookupA 6 (⟨2, [(5, ⟨[1], true, 3⟩), (6, ⟨[2], false, 1⟩)],
        [(3, [5]), (1, [6])], 1⟩ : LFUCache).cacheMap = some n ∧
      n.freq = 1 ∧
      (∀ p ∈ (⟨2, [(5, ⟨[1], true, 3⟩), (6, ⟨[2], false, 1⟩)],
        [(3, [5]), (1, [6])], 1⟩ : LFUCache).cacheMap, n.freq ≤ p.2.freq) ∧
      lookupA 6 ((LFUCache.Put (⟨2, [(5, ⟨[1], true, 3⟩), (6, ⟨[2], false, 1⟩)],
        [(3, [5]), (1, [6])], 1⟩ : LFUCache) 7 [9] true).2.2).cacheMap = none ∧
      lookupA 7 ((LFUCache.Put (⟨2, [(5, ⟨[1], true, 3⟩), (6, ⟨[2], false, 1⟩)],
        [(3, [5]), (1, [6])], 1⟩ : LFUCache) 7 [9] true).2.2).cacheMap
        = some ⟨[9], true, 1⟩) :=
  c6_lfu_eviction
    ⟨2, [(5, ⟨[1], true, 3⟩), (6, ⟨[2], false, 1⟩)], [(3, [5]), (1, [6])], 1⟩
    7 [9] true 6 (by decide) (by decide) (by decide) (by decide) rfl
    (by decide) rfl

end DFS
